import Mathlib

/-!
Shallow embedding of `src/textacy/spacy_utils.py` and verification of the
frozen claims about it.

The repository code consumes spaCy objects (`Token`, `Doc`, `Span`).  Those
collaborators are external to the repository, so their accessors are modelled
here from the specification's data model (section 3 of the spec): a document
is an ordered list of tokens; a token carries a document index, surface text,
lemma, coarse and fine part of speech, a dependency label, and the index of
its syntactic head; children of a token are the tokens whose head index is the
token's index; left (right) children are the children with smaller (larger)
document index, in document order.

The configured label sets `SUBJ_DEPS`, `OBJ_DEPS`, `AUX_DEPS` come from a
module that is not part of this repository; following the spec they are
treated as injected configuration and appear as explicit parameters.
-/

namespace SpacyUtils

/-- Coarse part of speech, a closed enumeration (only `NOUN` and `VERB` are
inspected by the code). -/
inductive Pos where
  | NOUN
  | VERB
  | OTHER
deriving DecidableEq, Repr

/-- Modelled from the spec: a token of an annotated document.  `i` is the
document index (list position for a well-formed document), `idx` the character
offset of the token in the underlying text, `head` the document index of the
syntactic head (the sentence root has `head = i`). -/
structure Token where
  i : Nat
  idx : Nat
  text : String
  lemma_ : String
  pos : Pos
  tag : String
  dep : String
  head : Nat
deriving DecidableEq, Repr

/-- Modelled from the spec: a document is an ordered sequence of tokens plus
the two readiness flags gating POS- and parse-dependent operations. -/
structure Doc where
  tokens : List Token
  is_tagged : Bool
  is_parsed : Bool
deriving DecidableEq, Repr

/-- Dependency children of a token: all tokens of the document whose head
index is the token's index (a token is never its own child; the sentence root
points at itself). -/
def Doc.children (doc : Doc) (t : Token) : List Token :=
  doc.tokens.filter (fun c => decide (c.head = t.i ∧ c.i ≠ t.i))

/-- Left dependency children: children with smaller document index, in
document order (`token.lefts` in spaCy). -/
def lefts (doc : Doc) (t : Token) : List Token :=
  (doc.children t).filter (fun c => decide (c.i < t.i))

/-- Right dependency children: children with larger document index, in
document order (`token.rights` in spaCy). -/
def rights (doc : Doc) (t : Token) : List Token :=
  (doc.children t).filter (fun c => decide (t.i < c.i))

/-- Character-wise lowercasing (the `token.lower` attribute: the lowercase
form of the surface text). -/
def lowerStr (s : String) : String :=
  ⟨s.data.map Char.toLower⟩

/-- Embedding of `is_plural_noun`: raises `ValueError` when the document is
not tagged, otherwise true iff the coarse POS is `NOUN` and the lemma differs
from the lowercased surface text (`token.lemma != token.lower`). -/
def is_plural_noun (doc : Doc) (tok : Token) : Except String Bool :=
  if doc.is_tagged = false then Except.error "token is not POS-tagged"
  else Except.ok (if tok.pos = Pos.NOUN ∧ tok.lemma_ ≠ lowerStr tok.text then true else false)

/-- Embedding of `is_negated_verb`: raises `ValueError` when the document is
not parsed, otherwise true iff the coarse POS is `VERB` and some dependency
child carries the label `neg`. -/
def is_negated_verb (doc : Doc) (tok : Token) : Except String Bool :=
  if doc.is_parsed = false then Except.error "token is not parsed"
  else if tok.pos = Pos.VERB ∧ (doc.children tok).any (fun c => c.dep == "neg") then Except.ok true
  else Except.ok false

/-- Embedding of `_get_conjuncts`: right children carrying the dependency
label `conj`. -/
def get_conjuncts (doc : Doc) (tok : Token) : List Token :=
  (rights doc tok).filter (fun r => r.dep == "conj")

/-- The self-extending loop shared by `get_subjects_of_verb` and
`get_objects_of_verb`: `toks.extend(tok for t in toks for tok in
_get_conjuncts(t))` iterates over the list while appending to it, so newly
discovered conjuncts are themselves scanned.  Position `i` is the cursor of
the list iterator; one fuel unit is spent per processed position, modelling
the possibility of nontermination on ill-formed (cyclic) parses.  On
tree-shaped parses the fuel supplied by the callers below is proved ample. -/
def conjLoop (doc : Doc) : Nat → List Token → Nat → List Token
  | 0, toks, _ => toks
  | fuel + 1, toks, i =>
    if h : i < toks.length then
      conjLoop doc fuel (toks ++ get_conjuncts doc (toks.get ⟨i, h⟩)) (i + 1)
    else toks

/-- Fuel supplied to the conjunct loop: ample for any document whose
dependency structure is a tree (proved below). -/
def conjFuel (doc : Doc) : Nat :=
  2 * doc.tokens.length + 2

/-- Seed list of `get_subjects_of_verb`: left children of the verb whose
dependency label lies in `SUBJ_DEPS`. -/
def subjSeeds (subj_deps : List String) (doc : Doc) (verb : Token) : List Token :=
  (lefts doc verb).filter (fun t => subj_deps.contains t.dep)

/-- Embedding of `get_subjects_of_verb`: the seed subjects extended, while
iterating, by the conjuncts of every list element. -/
def get_subjects_of_verb (subj_deps : List String) (doc : Doc) (verb : Token) : List Token :=
  conjLoop doc (conjFuel doc) (subjSeeds subj_deps doc verb) 0

/-- Seed list of `get_objects_of_verb`: right children whose label lies in
`OBJ_DEPS`, followed by right children labelled `xcomp` (two separate passes
over `verb.rights`, exactly as in the source). -/
def objSeeds (obj_deps : List String) (doc : Doc) (verb : Token) : List Token :=
  (rights doc verb).filter (fun t => obj_deps.contains t.dep)
    ++ (rights doc verb).filter (fun t => t.dep == "xcomp")

/-- Embedding of `get_objects_of_verb`. -/
def get_objects_of_verb (obj_deps : List String) (doc : Doc) (verb : Token) : List Token :=
  conjLoop doc (conjFuel doc) (objSeeds obj_deps doc verb) 0

/-- Embedding of `get_span_for_compound_noun`: count the consecutive
`compound`-labelled left children walking backward from the child nearest the
noun (`takewhile` over `reversed(noun.lefts)`), and return
`(noun.i - count, noun.i)`. -/
def get_span_for_compound_noun (doc : Doc) (noun : Token) : Int × Int :=
  let cnt := ((lefts doc noun).reverse.takeWhile (fun x => x.dep == "compound")).length
  ((noun.i : Int) - cnt, (noun.i : Int))

/-- Embedding of `get_span_for_verb_auxiliaries`: symmetric walk counting
consecutive `AUX_DEPS`-labelled children on both sides of the verb. -/
def get_span_for_verb_auxiliaries (aux_deps : List String) (doc : Doc) (verb : Token) : Int × Int :=
  let cl := ((lefts doc verb).reverse.takeWhile (fun x => aux_deps.contains x.dep)).length
  let cr := ((rights doc verb).takeWhile (fun x => aux_deps.contains x.dep)).length
  ((verb.i : Int) - cl, (verb.i : Int) + cr)

/-- A span over the document: a half-open range of token positions plus a
label, a view into the (current) token sequence, as in the spec's data
model. -/
structure Span where
  start : Nat
  stop : Nat
  label : String
deriving DecidableEq, Repr

/-- The tuple `(start, end, tag, text, label)` built by `_span_to_tuple`. -/
structure MTuple where
  startChar : Nat
  endChar : Nat
  tag : String
  text : String
  label : String
deriving DecidableEq, Repr

/-- Placeholder token used for the (out-of-contract) empty-span accesses. -/
def dummyToken : Token :=
  { i := 0, idx := 0, text := "", lemma_ := "", pos := Pos.OTHER, tag := "", dep := "", head := 0 }

/-- The tokens a span currently denotes: the slice of token positions
`[start, stop)` of the current document (spans are views, so this is
reevaluated against whatever the document currently contains). -/
def spanSlice (doc : Doc) (sp : Span) : List Token :=
  (doc.tokens.drop sp.start).take (sp.stop - sp.start)

/-- Embedding of `_span_to_tuple`: character start of the first token,
character end of the last token, tag of the span root (the token whose head
lies outside the span, by convention the last token otherwise), surface text,
and label. -/
def span_to_tuple (doc : Doc) (sp : Span) : MTuple :=
  let sl := spanSlice doc sp
  let first := sl.headD dummyToken
  let last := sl.getLastD dummyToken
  let root := (sl.filter (fun t => decide (t.head < sp.start ∨ sp.stop ≤ t.head))).headD last
  { startChar := first.idx
  , endChar := last.idx + last.text.length
  , tag := root.tag
  , text := String.intercalate " " (sl.map Token.text)
  , label := sp.label }

/-- Head-index remapping after merging token positions `[a, b)` into the
single position `a` (`k = b - a - 1` is the shift of subsequent indices). -/
def remapHead (a b k h : Nat) : Nat :=
  if h < a then h else if h < b then a else h - k

/-- Modelled from the spec: the mutation entry point `Doc.merge(start_char,
end_char, tag, text, label)` of the external pipeline, which replaces the
contiguous run of tokens covering exactly the character range
`[startChar, endChar)` with one synthesized token and renumbers subsequent
tokens (spec sections 3 and 6).  When the character range does not align with
token boundaries the document is returned unchanged (spaCy returns `None`
without merging). -/
def doc_merge (doc : Doc) (tu : MTuple) : Doc :=
  let ts := doc.tokens
  let pre := ts.takeWhile (fun t => decide (t.idx < tu.startChar))
  let rest := ts.dropWhile (fun t => decide (t.idx < tu.startChar))
  let covered := rest.takeWhile (fun t => decide (t.idx + t.text.length ≤ tu.endChar))
  let post := rest.dropWhile (fun t => decide (t.idx + t.text.length ≤ tu.endChar))
  if covered.isEmpty then doc
  else if (covered.headD dummyToken).idx ≠ tu.startChar then doc
  else if (covered.getLastD dummyToken).idx + (covered.getLastD dummyToken).text.length ≠ tu.endChar then doc
  else
    let a := pre.length
    let b := a + covered.length
    let k := covered.length - 1
    let rootC := (covered.filter (fun t => decide (t.head < a ∨ b ≤ t.head))).headD (covered.getLastD dummyToken)
    let newTok : Token :=
      { i := a, idx := tu.startChar, text := tu.text, lemma_ := tu.text
      , pos := Pos.OTHER, tag := tu.tag, dep := rootC.dep, head := remapHead a b k rootC.head }
    let fix := fun (t : Token) =>
      { t with i := if t.i < b then t.i else t.i - k, head := remapHead a b k t.head }
    { doc with tokens := (pre.map fix) ++ [newTok] ++ (post.map fix) }

/-- Embedding of `merge_spans`: the loop `for span_tuple in (_span_to_tuple(span)
for span in spans): doc.merge(*span_tuple)`.  The tuple source is a generator
expression, so each tuple is computed lazily from the document as it stands
when that tuple is requested, interleaved with the merges. -/
def merge_spans (spans : List Span) (doc : Doc) : Doc :=
  match spans with
  | [] => doc
  | sp :: rest => merge_spans rest (doc_merge doc (span_to_tuple doc sp))

/-- The sequence of tuples actually passed to `doc.merge` by `merge_spans`,
in order: the tuple for each span is computed on the document resulting from
the earlier merges (because the tuple source is a lazy generator). -/
def merge_spans_tuples (spans : List Span) (doc : Doc) : List MTuple :=
  match spans with
  | [] => []
  | sp :: rest =>
    let tu := span_to_tuple doc sp
    tu :: merge_spans_tuples rest (doc_merge doc tu)

/-- Reachability along the conjunct relation: `ConjReach doc s t` holds when
`t` is obtained from `s` by following zero or more `conj`-labelled right-child
edges.  This is the transitive conjunct closure described by the spec. -/
inductive ConjReach (doc : Doc) : Token → Token → Prop where
  | refl (t : Token) : ConjReach doc t t
  | step {a b c : Token} : ConjReach doc a b → c ∈ get_conjuncts doc b → ConjReach doc a c

/-- Invariant of the self-extending conjunct loop at state `(toks, i)`
(`i` = cursor of the list iterator): the multiplicity of every token equals
its seed multiplicity plus the number of processed entries of which it is a
conjunct; all entries come from the document; every entry is conjunct-reachable
from a seed; and the seeds form the initial segment of the list. -/
def LoopInv (doc : Doc) (seeds toks : List Token) (i : Nat) : Prop :=
  (∀ w : Token,
      toks.count w
        = seeds.count w + (toks.take i).countP (fun v => decide (w ∈ get_conjuncts doc v)))
  ∧ (∀ t ∈ toks, t ∈ doc.tokens)
  ∧ (∀ t ∈ toks, ∃ s ∈ seeds, ConjReach doc s t)
  ∧ toks.take seeds.length = seeds

/-! Concrete documents used as witnesses and counterexamples. -/

/-- A ten-token document: token `j` sits at character offset `10 * j` with a
two-character surface form; all heads point at token 0. -/
def doc10 : Doc :=
  ⟨(List.range 10).map (fun j =>
      { i := j, idx := 10 * j, text := "t" ++ toString j, lemma_ := ""
      , pos := Pos.OTHER, tag := "g" ++ toString j, dep := "d", head := 0 }), true, true⟩

/-- The span of token positions 2 and 3 of `doc10`. -/
def spA : Span := ⟨2, 4, "A"⟩

/-- The span of token positions 6 and 7 of `doc10`. -/
def spB : Span := ⟨6, 8, "B"⟩

/-- Chained coordination: `tokA` is an `nsubj` left child of the verb,
`tokB` a conjunct of `tokA`, `tokC` a conjunct of `tokB`. -/
def tokA : Token :=
  { i := 0, idx := 0, text := "Ann", lemma_ := "ann", pos := Pos.OTHER
  , tag := "NNP", dep := "nsubj", head := 3 }

/-- First-level conjunct of `tokA`. -/
def tokB : Token :=
  { i := 1, idx := 4, text := "Bob", lemma_ := "bob", pos := Pos.OTHER
  , tag := "NNP", dep := "conj", head := 0 }

/-- Second-level conjunct, hanging off `tokB`. -/
def tokC : Token :=
  { i := 2, idx := 8, text := "Carl", lemma_ := "carl", pos := Pos.OTHER
  , tag := "NNP", dep := "conj", head := 1 }

/-- The verb of the chained-coordination document. -/
def tokV : Token :=
  { i := 3, idx := 13, text := "left", lemma_ := "leave", pos := Pos.VERB
  , tag := "VBD", dep := "ROOT", head := 3 }

/-- Document for the chained coordination `Ann, Bob and Carl left`. -/
def docChain : Doc := ⟨[tokA, tokB, tokC, tokV], true, true⟩

/-- Depth function witnessing that `docChain` is a tree (the root `tokV`
has the smallest rank). -/
def rankChain : Nat → Nat := fun n => if n = 3 then 0 else n + 1

/-- Root verb of the object documents below. -/
def vObj : Token :=
  { i := 0, idx := 0, text := "saw", lemma_ := "see", pos := Pos.VERB
  , tag := "VBD", dep := "ROOT", head := 0 }

/-- Direct object (right child of `vObj`). -/
def oDobj : Token :=
  { i := 1, idx := 4, text := "cats", lemma_ := "cat", pos := Pos.NOUN
  , tag := "NNS", dep := "dobj", head := 0 }

/-- Conjunct hanging off `oDobj`. -/
def oConj : Token :=
  { i := 2, idx := 9, text := "dogs", lemma_ := "dog", pos := Pos.NOUN
  , tag := "NNS", dep := "conj", head := 1 }

/-- Document with a direct object and one conjunct object. -/
def docObjs : Doc := ⟨[vObj, oDobj, oConj], true, true⟩

/-- Identity rank function: witnesses tree-ness when every head precedes its
children in document order. -/
def rankId : Nat → Nat := fun n => n

/-- Right child of `vObj` labelled `xcomp`, for the duplicate-object
counterexample. -/
def xDup : Token :=
  { i := 1, idx := 4, text := "run", lemma_ := "run", pos := Pos.VERB
  , tag := "VB", dep := "xcomp", head := 0 }

/-- Document whose verb has a single right child labelled `xcomp`. -/
def docXdup : Doc := ⟨[vObj, xDup], true, true⟩

/-- Subject token of the unparsed document `docNP`. -/
def sNP : Token :=
  { i := 0, idx := 0, text := "Ann", lemma_ := "ann", pos := Pos.OTHER
  , tag := "NNP", dep := "nsubj", head := 1 }

/-- Verb token of the unparsed document `docNP`. -/
def vNP : Token :=
  { i := 1, idx := 4, text := "left", lemma_ := "leave", pos := Pos.VERB
  , tag := "VBD", dep := "ROOT", head := 1 }

/-- A document whose `is_parsed` flag is false, yet which carries dependency
fields. -/
def docNP : Doc := ⟨[sNP, vNP], true, false⟩

/-- A plural noun token (`lemma` differs from the lowercased text). -/
def pluralTok : Token :=
  { i := 0, idx := 0, text := "Cats", lemma_ := "cat", pos := Pos.NOUN
  , tag := "NNS", dep := "ROOT", head := 0 }

/-- Tagged document containing `pluralTok`. -/
def docTagged : Doc := ⟨[pluralTok], true, true⟩

/-- Untagged document containing `pluralTok`. -/
def docUntagged : Doc := ⟨[pluralTok], false, true⟩

/-- A verb with no children in `docNoNeg`, negated in `docNeg`. -/
def vNeg : Token :=
  { i := 0, idx := 0, text := "ran", lemma_ := "run", pos := Pos.VERB
  , tag := "VBD", dep := "ROOT", head := 0 }

/-- A `neg`-labelled child of `vNeg`. -/
def nNeg : Token :=
  { i := 1, idx := 4, text := "not", lemma_ := "not", pos := Pos.OTHER
  , tag := "RB", dep := "neg", head := 0 }

/-- Parsed document in which `vNeg` has no children. -/
def docNoNeg : Doc := ⟨[vNeg], true, true⟩

/-- Parsed document in which `vNeg` has exactly one `neg`-labelled child. -/
def docNeg : Doc := ⟨[vNeg, nNeg], true, true⟩

/-! Helper lemmas about the embedding. -/

/-- Decomposition of a list along `takeWhile`: an all-true initial run whose
length is the `takeWhile` length, followed either by nothing or by an element
falsifying the predicate. -/
theorem takeWhile_decomp {α : Type} (p : α → Bool) (l : List α) :
    ∃ run rest, l = run ++ rest ∧ (∀ t ∈ run, p t = true)
      ∧ (rest = [] ∨ ∃ y ys, rest = y :: ys ∧ p y = false)
      ∧ run.length = (l.takeWhile p).length := by
  refine ⟨l.takeWhile p, l.dropWhile p, (List.takeWhile_append_dropWhile (p := p) (l := l)).symm,
    fun t ht => List.mem_takeWhile_imp ht, ?_, rfl⟩
  cases hdw : l.dropWhile p with
  | nil => exact Or.inl rfl
  | cons y ys =>
    refine Or.inr ⟨y, ys, rfl, ?_⟩
    have h0 : 0 < (l.dropWhile p).length := by rw [hdw]; simp
    have hnp := List.dropWhile_get_zero_not (p := p) l h0
    have hy : (l.dropWhile p).get ⟨0, h0⟩ = y := by
      simp [hdw]
    rw [hy] at hnp
    exact Bool.not_eq_true _ ▸ hnp

/-- Decomposition of a list along a backward `takeWhile` (the
`takewhile(pred, reversed(list))` idiom): an all-true final run preceded
either by nothing or by an element falsifying the predicate. -/
theorem reverse_takeWhile_decomp {α : Type} (p : α → Bool) (l : List α) :
    ∃ pre run, l = pre ++ run ∧ (∀ t ∈ run, p t = true)
      ∧ (pre = [] ∨ ∃ l0 x, pre = l0 ++ [x] ∧ p x = false)
      ∧ run.length = (l.reverse.takeWhile p).length := by
  obtain ⟨run0, rest0, hsplit, hall, hb, hlen⟩ := takeWhile_decomp p l.reverse
  refine ⟨rest0.reverse, run0.reverse, ?_, ?_, ?_, by simpa using hlen⟩
  · have h := congrArg List.reverse hsplit
    simpa using h
  · intro t ht
    exact hall t (List.mem_reverse.mp ht)
  · rcases hb with h | ⟨y, ys, hr, hy⟩
    · exact Or.inl (by simp [h])
    · exact Or.inr ⟨ys.reverse, y, by simp [hr], hy⟩

/-- The conjunct loop never looks at the readiness flags: documents with the
same token list yield the same loop results. -/
theorem conjLoop_flags_congr (tk : List Token) (a b a2 b2 : Bool) :
    ∀ f toks i, conjLoop ⟨tk, a, b⟩ f toks i = conjLoop ⟨tk, a2, b2⟩ f toks i := by
  intro f
  induction f with
  | zero => intro toks i; rfl
  | succ f ih =>
    intro toks i
    simp only [conjLoop]
    by_cases h : i < toks.length
    · rw [dif_pos h, dif_pos h]
      exact ih _ _
    · rw [dif_neg h, dif_neg h]

/-! Theorems for the frozen claims. -/

/-- Claim C1 (code bug evidence): `merge_spans` documents that it gathers all
`(start, end, tag, text, label)` tuples before merging, but the tuple source
is a lazy generator, so the tuple for the second span is computed after the
first merge has already mutated the document.  On `doc10` with the disjoint
spans `[2,4)` and `[6,8)`, the recorded second tuple is
`(70, 82, g7, t7 t8, B)` although on the original document the span denotes
`(60, 72, g6, t6 t7, B)`. -/
theorem c1_lazy_tuple_capture :
    merge_spans_tuples [spA, spB] doc10
      = [⟨20, 32, "g2", "t2 t3", "A"⟩, ⟨70, 82, "g7", "t7 t8", "B"⟩]
    ∧ span_to_tuple doc10 spB = ⟨60, 72, "g6", "t6 t7", "B"⟩
    ∧ merge_spans_tuples [spA, spB] doc10
      ≠ [span_to_tuple doc10 spA, span_to_tuple doc10 spB] :=
  ⟨by decide, by decide, by decide⟩

/-- Claim C3 (counterexample): `get_subjects_of_verb` does not raise on a
document whose `is_parsed` flag is false; it returns an ordinary result. -/
theorem c3_counterexample :
    docNP.is_parsed = false ∧ get_subjects_of_verb ["nsubj"] docNP vNP = [sNP] :=
  ⟨rfl, by decide⟩

/-- Claim C3 (amended): only `is_negated_verb` checks the `is_parsed` flag;
`get_subjects_of_verb`, `get_objects_of_verb` and
`get_span_for_verb_auxiliaries` perform no readiness check at all — their
results are unchanged under any setting of the readiness flags. -/
theorem c3_readiness_checks_amended (sd od ad : List String) (toks : List Token)
    (tg tg2 ps ps2 : Bool) (tok verb : Token) :
    (ps = false → is_negated_verb ⟨toks, tg, ps⟩ tok = Except.error "token is not parsed")
    ∧ get_subjects_of_verb sd ⟨toks, tg, ps⟩ verb = get_subjects_of_verb sd ⟨toks, tg2, ps2⟩ verb
    ∧ get_objects_of_verb od ⟨toks, tg, ps⟩ verb = get_objects_of_verb od ⟨toks, tg2, ps2⟩ verb
    ∧ get_span_for_verb_auxiliaries ad ⟨toks, tg, ps⟩ verb
      = get_span_for_verb_auxiliaries ad ⟨toks, tg2, ps2⟩ verb := by
  refine ⟨fun h => by simp [is_negated_verb, h], ?_, ?_, rfl⟩
  · exact conjLoop_flags_congr toks tg ps tg2 ps2 _ _ _
  · exact conjLoop_flags_congr toks tg ps tg2 ps2 _ _ _

/-- Claim C3 (witness for the amended theorem). -/
theorem c3_readiness_checks_amended_witness :
    is_negated_verb ⟨[sNP, vNP], true, false⟩ vNP = Except.error "token is not parsed" :=
  (c3_readiness_checks_amended ["nsubj"] [] [] [sNP, vNP] true true false false vNP vNP).1 rfl

/-- Claim C4 (counterexample): with `OBJ_DEPS = ["xcomp"]`, an `xcomp` right
child is collected by both seed passes of `get_objects_of_verb`, so the
returned sequence contains it twice. -/
theorem c4_counterexample :
    "xcomp" ∈ ["xcomp"] ∧ get_objects_of_verb ["xcomp"] docXdup vObj = [xDup, xDup]
    ∧ ¬ (get_objects_of_verb ["xcomp"] docXdup vObj).Nodup :=
  ⟨by decide, by decide, by decide⟩

/-- Claim C5: `get_span_for_verb_auxiliaries` returns
`(verb.i - c, verb.i + d)` where `c` counts a maximal run of consecutive
`AUX_DEPS`-labelled left children walking backward from the child nearest the
verb (the run is a final segment of the ascending left-children list, and is
bounded on the left either by exhaustion or by a child outside `AUX_DEPS`),
and symmetrically `d` counts the maximal `AUX_DEPS` run of right children
walking forward from the nearest right child. -/
theorem c5_verb_aux_span (ad : List String) (doc : Doc) (verb : Token) :
    ∃ lpre lrun rrun rrest,
      lefts doc verb = lpre ++ lrun ∧ rights doc verb = rrun ++ rrest
      ∧ (∀ t ∈ lrun, ad.contains t.dep = true)
      ∧ (lpre = [] ∨ ∃ l0 x, lpre = l0 ++ [x] ∧ ad.contains x.dep = false)
      ∧ (∀ t ∈ rrun, ad.contains t.dep = true)
      ∧ (rrest = [] ∨ ∃ y ys, rrest = y :: ys ∧ ad.contains y.dep = false)
      ∧ get_span_for_verb_auxiliaries ad doc verb
        = ((verb.i : Int) - lrun.length, (verb.i : Int) + rrun.length) := by
  obtain ⟨lpre, lrun, hl, hlall, hlb, hllen⟩ :=
    reverse_takeWhile_decomp (fun x => ad.contains x.dep) (lefts doc verb)
  obtain ⟨rrun, rrest, hr, hrall, hrb, hrlen⟩ :=
    takeWhile_decomp (fun x => ad.contains x.dep) (rights doc verb)
  refine ⟨lpre, lrun, rrun, rrest, hl, hr, hlall, hlb, hrall, hrb, ?_⟩
  simp only [get_span_for_verb_auxiliaries, ← hllen, ← hrlen]

/-- Claim C6: `get_span_for_compound_noun` returns `(noun.i - c, noun.i)`
where `c` counts a maximal run of consecutive `compound`-labelled left
children walking backward from the child nearest the noun; the run stops at
the first non-compound child (e.g. a determiner) or at exhaustion, so such a
child and everything to its left is excluded from the span. -/
theorem c6_compound_noun_span (doc : Doc) (noun : Token) :
    ∃ pre run,
      lefts doc noun = pre ++ run
      ∧ (∀ t ∈ run, t.dep = "compound")
      ∧ (pre = [] ∨ ∃ l0 x, pre = l0 ++ [x] ∧ x.dep ≠ "compound")
      ∧ get_span_for_compound_noun doc noun = ((noun.i : Int) - run.length, (noun.i : Int)) := by
  obtain ⟨pre, run, hsplit, hall, hb, hlen⟩ :=
    reverse_takeWhile_decomp (fun x => x.dep == "compound") (lefts doc noun)
  refine ⟨pre, run, hsplit, ?_, ?_, ?_⟩
  · intro t ht
    simpa using hall t ht
  · rcases hb with h | ⟨l0, x, hpre, hx⟩
    · exact Or.inl h
    · exact Or.inr ⟨l0, x, hpre, by simpa using hx⟩
  · simp only [get_span_for_compound_noun, ← hlen]

/-- Claim C7: `is_plural_noun` raises on an untagged document, and on a
tagged document returns true exactly when the coarse POS is `NOUN` and the
lemma differs from the lowercased surface text; in particular it returns
false for every token whose coarse POS is not `NOUN`. -/
theorem c7_is_plural_noun_spec (doc : Doc) (tok : Token) :
    (doc.is_tagged = false → is_plural_noun doc tok = Except.error "token is not POS-tagged")
    ∧ (doc.is_tagged = true →
        (is_plural_noun doc tok = Except.ok true
          ↔ tok.pos = Pos.NOUN ∧ tok.lemma_ ≠ lowerStr tok.text))
    ∧ (doc.is_tagged = true → tok.pos ≠ Pos.NOUN → is_plural_noun doc tok = Except.ok false) := by
  refine ⟨fun h => by simp [is_plural_noun, h], fun h => ?_, fun h hn => ?_⟩
  · by_cases hc : tok.pos = Pos.NOUN ∧ tok.lemma_ ≠ lowerStr tok.text
    · simp [is_plural_noun, h, hc]
    · simp [is_plural_noun, h, hc]
  · have hc : ¬ (tok.pos = Pos.NOUN ∧ tok.lemma_ ≠ lowerStr tok.text) := fun hcc => hn hcc.1
    simp [is_plural_noun, h, hc]

/-- Claim C7 (witness): on the untagged document the classifier raises; on
the tagged document the plural noun is recognised. -/
theorem c7_is_plural_noun_spec_witness :
    is_plural_noun docUntagged pluralTok = Except.error "token is not POS-tagged"
    ∧ is_plural_noun docTagged pluralTok = Except.ok true :=
  ⟨(c7_is_plural_noun_spec docUntagged pluralTok).1 rfl,
    ((c7_is_plural_noun_spec docTagged pluralTok).2.1 rfl).mpr ⟨rfl, by decide⟩⟩
/-- Claim C8: `is_negated_verb` raises on an unparsed document; on a parsed
document it returns true exactly when the coarse POS is `VERB` and some
direct dependency child is labelled `neg`; a verb with no `neg` child yields
false, and extending its children with exactly one `neg`-labelled child
yields true. -/
theorem c8_is_negated_verb_spec (doc doc2 : Doc) (tok c : Token) :
    (doc.is_parsed = false → is_negated_verb doc tok = Except.error "token is not parsed")
    ∧ (doc.is_parsed = true →
        (is_negated_verb doc tok = Except.ok true
          ↔ tok.pos = Pos.VERB ∧ ∃ ch ∈ doc.children tok, ch.dep = "neg"))
    ∧ (doc.is_parsed = true → (∀ ch ∈ doc.children tok, ch.dep ≠ "neg") →
        is_negated_verb doc tok = Except.ok false)
    ∧ (doc2.is_parsed = true → tok.pos = Pos.VERB →
        doc2.children tok = doc.children tok ++ [c] → c.dep = "neg" →
        is_negated_verb doc2 tok = Except.ok true) := by
  refine ⟨fun h => by simp [is_negated_verb, h], fun h => ?_, fun h hno => ?_, fun h hv hch hc => ?_⟩
  · have hident : (tok.pos = Pos.VERB ∧ ∃ ch ∈ doc.children tok, ch.dep = "neg")
        ↔ (tok.pos = Pos.VERB
            ∧ ((doc.children tok).any fun ch => ch.dep == "neg") = true) := by
      simp [List.any_eq_true]
    rw [hident]
    by_cases hc : tok.pos = Pos.VERB ∧ ((doc.children tok).any fun ch => ch.dep == "neg") = true
    · simp [is_negated_verb, h, hc]
    · simp [is_negated_verb, h, hc]
  · have hc : ¬ (tok.pos = Pos.VERB
        ∧ ((doc.children tok).any fun ch => ch.dep == "neg") = true) := by
      rintro ⟨-, hany⟩
      simp only [List.any_eq_true, beq_iff_eq] at hany
      obtain ⟨ch, hmem, hdep⟩ := hany
      exact hno ch hmem hdep
    simp only [is_negated_verb, h, Bool.true_eq_false, if_false, if_neg hc]
  · have hany : ((doc2.children tok).any fun ch => ch.dep == "neg") = true := by
      rw [hch]
      simp [hc]
    simp [is_negated_verb, h, hv, hany]

/-- Claim C8 (witness): the verb of `docNoNeg` has no children, and adding
the single `neg` child of `docNeg` makes the classifier return true. -/
theorem c8_is_negated_verb_spec_witness :
    is_negated_verb docNoNeg vNeg = Except.ok false
    ∧ is_negated_verb docNeg vNeg = Except.ok true :=
  ⟨(c8_is_negated_verb_spec docNoNeg docNeg vNeg nNeg).2.2.1 rfl (by decide),
    (c8_is_negated_verb_spec docNoNeg docNeg vNeg nNeg).2.2.2 rfl rfl (by decide) rfl⟩

/-- Claim C10: both span resolvers bracket the head token: the compound-noun
span ends at the noun's index and starts at most the number of left children
before it; the verb-auxiliary span contains the verb's index, extending left
by at most the number of left children and right by at most the number of
right children. -/
theorem c10_spans_bracket_head (ad : List String) (doc : Doc) (noun verb : Token) :
    (get_span_for_compound_noun doc noun).2 = (noun.i : Int)
    ∧ (get_span_for_compound_noun doc noun).1 ≤ (noun.i : Int)
    ∧ (noun.i : Int) - (get_span_for_compound_noun doc noun).1 ≤ (lefts doc noun).length
    ∧ (get_span_for_verb_auxiliaries ad doc verb).1 ≤ (verb.i : Int)
    ∧ (verb.i : Int) ≤ (get_span_for_verb_auxiliaries ad doc verb).2
    ∧ (verb.i : Int) - (get_span_for_verb_auxiliaries ad doc verb).1 ≤ (lefts doc verb).length
    ∧ (get_span_for_verb_auxiliaries ad doc verb).2 - (verb.i : Int) ≤ (rights doc verb).length := by
  have h1 : ((lefts doc noun).reverse.takeWhile (fun x => x.dep == "compound")).length
      ≤ (lefts doc noun).length := by
    have := (List.takeWhile_prefix (l := (lefts doc noun).reverse)
      (fun x => x.dep == "compound")).length_le
    simpa using this
  have h2 : ((lefts doc verb).reverse.takeWhile (fun x => ad.contains x.dep)).length
      ≤ (lefts doc verb).length := by
    have := (List.takeWhile_prefix (l := (lefts doc verb).reverse)
      (fun x => ad.contains x.dep)).length_le
    simpa using this
  have h3 : ((rights doc verb).takeWhile (fun x => ad.contains x.dep)).length
      ≤ (rights doc verb).length :=
    (List.takeWhile_prefix (l := rights doc verb) (fun x => ad.contains x.dep)).length_le
  have e1 : get_span_for_compound_noun doc noun
      = ((noun.i : Int)
          - ((lefts doc noun).reverse.takeWhile (fun x => x.dep == "compound")).length,
        (noun.i : Int)) := rfl
  have e2 : get_span_for_verb_auxiliaries ad doc verb
      = ((verb.i : Int)
          - ((lefts doc verb).reverse.takeWhile (fun x => ad.contains x.dep)).length,
        (verb.i : Int)
          + ((rights doc verb).takeWhile (fun x => ad.contains x.dep)).length) := rfl
  rw [e1, e2]
  dsimp only
  refine ⟨rfl, ?_, ?_, ?_, ?_, ?_, ?_⟩ <;> omega

/-! Machinery for the conjunct-closure loop: invariant preservation, token
multiplicities, and the fixed point reached on tree-shaped parses. -/

/-- Unpacking membership in `Doc.children`. -/
theorem mem_children_elim {doc : Doc} {t c : Token} (h : c ∈ doc.children t) :
    c ∈ doc.tokens ∧ c.head = t.i ∧ c.i ≠ t.i := by
  simp only [Doc.children, List.mem_filter, decide_eq_true_eq] at h
  exact ⟨h.1, h.2.1, h.2.2⟩

/-- Unpacking membership in `lefts`. -/
theorem mem_lefts_elim {doc : Doc} {t c : Token} (h : c ∈ lefts doc t) :
    c ∈ doc.tokens ∧ c.head = t.i ∧ c.i < t.i := by
  simp only [lefts, List.mem_filter, decide_eq_true_eq] at h
  obtain ⟨hch, hlt⟩ := h
  obtain ⟨hm, hh, -⟩ := mem_children_elim hch
  exact ⟨hm, hh, hlt⟩

/-- Unpacking membership in `rights`. -/
theorem mem_rights_elim {doc : Doc} {t c : Token} (h : c ∈ rights doc t) :
    c ∈ doc.tokens ∧ c.head = t.i ∧ t.i < c.i := by
  simp only [rights, List.mem_filter, decide_eq_true_eq] at h
  obtain ⟨hch, hlt⟩ := h
  obtain ⟨hm, hh, -⟩ := mem_children_elim hch
  exact ⟨hm, hh, hlt⟩

/-- Unpacking membership in `get_conjuncts`. -/
theorem mem_conjuncts_elim {doc : Doc} {t c : Token} (h : c ∈ get_conjuncts doc t) :
    c ∈ doc.tokens ∧ c.head = t.i ∧ t.i < c.i := by
  simp only [get_conjuncts, List.mem_filter, beq_iff_eq] at h
  exact mem_rights_elim h.1

/-- A document with pairwise-distinct token indices has pairwise-distinct
tokens. -/
theorem tokens_nodup {doc : Doc} (hdoc : (doc.tokens.map Token.i).Nodup) :
    doc.tokens.Nodup :=
  List.Nodup.of_map _ hdoc

/-- On a document with distinct token indices, equal indices force equal
tokens. -/
theorem i_inj {doc : Doc} (hdoc : (doc.tokens.map Token.i).Nodup) {a b : Token}
    (ha : a ∈ doc.tokens) (hb : b ∈ doc.tokens) (hab : a.i = b.i) : a = b :=
  List.inj_on_of_nodup_map hdoc ha hb hab

/-- Conjunct lists of an index-distinct document are duplicate-free. -/
theorem conjuncts_nodup {doc : Doc} (hdoc : (doc.tokens.map Token.i).Nodup) (t : Token) :
    (get_conjuncts doc t).Nodup :=
  List.Nodup.filter _ (List.Nodup.filter _ (List.Nodup.filter _ (tokens_nodup hdoc)))

/-- A `countP` is bounded by the count of any element that every counted
element must equal. -/
theorem countP_le_count_of {α : Type} [DecidableEq α] (l : List α) (p : α → Bool) (a : α)
    (h : ∀ x ∈ l, p x = true → x = a) : l.countP p ≤ l.count a := by
  induction l with
  | nil => simp
  | cons x xs ih =>
    have hx := h x (List.mem_cons_self x xs)
    have ihx := ih (fun y hy hp => h y (List.mem_cons_of_mem _ hy) hp)
    by_cases hp : p x = true
    · have hxa : x = a := hx hp
      subst hxa
      rw [List.countP_cons_of_pos _ _ hp, List.count_cons_self]
      omega
    · rw [List.countP_cons_of_neg _ _ (by simpa using hp)]
      exact le_trans ihx ((List.sublist_cons_self x xs).count_le a)

/-- Conjunct reachability never decreases the tree rank. -/
theorem conjReach_rank (doc : Doc) (rank : Nat → Nat)
    (hrank : ∀ u ∈ doc.tokens, ∀ v ∈ doc.tokens, u.head = v.i → u.i ≠ v.i → rank v.i < rank u.i)
    {s t : Token} (hr : ConjReach doc s t) (hs : s ∈ doc.tokens) :
    t ∈ doc.tokens ∧ rank s.i ≤ rank t.i := by
  induction hr with
  | refl => exact ⟨hs, le_refl _⟩
  | @step b c hab hc ih =>
    obtain ⟨hb, hle⟩ := ih
    obtain ⟨hcm, hch, hlt⟩ := mem_conjuncts_elim hc
    have hrk : rank b.i < rank c.i := hrank c hcm b hb hch (by omega)
    exact ⟨hcm, by omega⟩

/-- On a ranked (tree-shaped) parse, the verb itself never enters the
conjunct loop when all seeds are its children. -/
theorem verb_not_mem_inv (doc : Doc) (verb : Token) (seeds : List Token) (rank : Nat → Nat)
    (hverb : verb ∈ doc.tokens)
    (hrank : ∀ u ∈ doc.tokens, ∀ v ∈ doc.tokens, u.head = v.i → u.i ≠ v.i → rank v.i < rank u.i)
    (hseedsub : ∀ s ∈ seeds, s ∈ doc.tokens)
    (hseedhead : ∀ s ∈ seeds, s.head = verb.i ∧ s.i ≠ verb.i)
    {toks : List Token} {i : Nat} (hinv : LoopInv doc seeds toks i) :
    verb ∉ toks := by
  intro hmem
  obtain ⟨-, -, hreach, -⟩ := hinv
  obtain ⟨s, hs, hr⟩ := hreach verb hmem
  obtain ⟨-, hle⟩ := conjReach_rank doc rank hrank hr (hseedsub s hs)
  obtain ⟨hh, hne⟩ := hseedhead s hs
  have := hrank s (hseedsub s hs) verb hverb hh hne
  omega

/-- Multiplicity bound: in any loop state, every token occurs at most as
often as the seed-multiplicity bound `Sb`. -/
theorem inv_count_le (doc : Doc) (verb : Token) (seeds : List Token) (Sb : Nat) (rank : Nat → Nat)
    (hdoc : (doc.tokens.map Token.i).Nodup)
    (hverb : verb ∈ doc.tokens)
    (hrank : ∀ u ∈ doc.tokens, ∀ v ∈ doc.tokens, u.head = v.i → u.i ≠ v.i → rank v.i < rank u.i)
    (hseedsub : ∀ s ∈ seeds, s ∈ doc.tokens)
    (hseedhead : ∀ s ∈ seeds, s.head = verb.i ∧ s.i ≠ verb.i)
    (hseedcnt : ∀ w, seeds.count w ≤ Sb)
    {toks : List Token} {i : Nat} (hinv : LoopInv doc seeds toks i) :
    ∀ w, toks.count w ≤ Sb := by
  have hvnm := verb_not_mem_inv doc verb seeds rank hverb hrank hseedsub hseedhead hinv
  obtain ⟨hcount, hsub, hreach, hpref⟩ := hinv
  have main : ∀ r, ∀ w, w ∈ doc.tokens → rank w.i < r → toks.count w ≤ Sb := by
    intro r
    induction r with
    | zero => intro w _ hwr; omega
    | succ r ih =>
      intro w hw hwr
      have hc := hcount w
      by_cases hpos : 0 < (toks.take i).countP (fun v => decide (w ∈ get_conjuncts doc v))
      · obtain ⟨v0, hv0tk, hv0p⟩ := List.countP_pos_iff.mp hpos
        have hv0 : v0 ∈ toks := List.take_subset i toks hv0tk
        have hv0doc : v0 ∈ doc.tokens := hsub v0 hv0
        have hwconj : w ∈ get_conjuncts doc v0 := of_decide_eq_true hv0p
        obtain ⟨-, hwh, hwlt⟩ := mem_conjuncts_elim hwconj
        have hseed0 : seeds.count w = 0 := by
          by_contra hne
          have hwmem : w ∈ seeds := List.count_pos_iff.mp (Nat.pos_of_ne_zero hne)
          obtain ⟨hwhead, -⟩ := hseedhead w hwmem
          have hv0verb : v0 = verb := i_inj hdoc hv0doc hverb (by omega)
          exact hvnm (hv0verb ▸ hv0)
        have hle1 : (toks.take i).countP (fun v => decide (w ∈ get_conjuncts doc v))
            ≤ toks.countP (fun v => decide (w ∈ get_conjuncts doc v)) :=
          (List.take_sublist i toks).countP_le _
        have hle2 : toks.countP (fun v => decide (w ∈ get_conjuncts doc v)) ≤ toks.count v0 := by
          refine countP_le_count_of toks _ v0 ?_
          intro x hx hpx
          have hxconj : w ∈ get_conjuncts doc x := of_decide_eq_true hpx
          obtain ⟨-, hwh2, -⟩ := mem_conjuncts_elim hxconj
          exact i_inj hdoc (hsub x hx) hv0doc (by omega)
        have hrk : rank v0.i < rank w.i := hrank w hw v0 hv0doc hwh (by omega)
        have hihv := ih v0 hv0doc (by omega)
        omega
      · have hz : (toks.take i).countP (fun v => decide (w ∈ get_conjuncts doc v)) = 0 := by
          omega
        have := hseedcnt w
        omega
  intro w
  by_cases hw : w ∈ toks
  · exact main (rank w.i + 1) w (hsub w hw) (Nat.lt_succ_self _)
  · rw [List.count_eq_zero_of_not_mem hw]
    omega

/-- Length bound: any loop state on a tree-shaped parse holds at most
`Sb * |doc|` entries. -/
theorem inv_length_le (doc : Doc) (verb : Token) (seeds : List Token) (Sb : Nat) (rank : Nat → Nat)
    (hdoc : (doc.tokens.map Token.i).Nodup)
    (hverb : verb ∈ doc.tokens)
    (hrank : ∀ u ∈ doc.tokens, ∀ v ∈ doc.tokens, u.head = v.i → u.i ≠ v.i → rank v.i < rank u.i)
    (hseedsub : ∀ s ∈ seeds, s ∈ doc.tokens)
    (hseedhead : ∀ s ∈ seeds, s.head = verb.i ∧ s.i ≠ verb.i)
    (hseedcnt : ∀ w, seeds.count w ≤ Sb)
    {toks : List Token} {i : Nat} (hinv : LoopInv doc seeds toks i) :
    toks.length ≤ Sb * doc.tokens.length := by
  have hcnt := inv_count_le doc verb seeds Sb rank hdoc hverb hrank hseedsub hseedhead hseedcnt hinv
  obtain ⟨-, hsub, -, -⟩ := hinv
  have hms : (toks : Multiset Token) ≤ Sb • (doc.tokens : Multiset Token) := by
    rw [Multiset.le_iff_count]
    intro a
    rw [Multiset.count_nsmul]
    by_cases ha : a ∈ doc.tokens
    · have h1 : 1 ≤ Multiset.count a (doc.tokens : Multiset Token) := by
        rw [Multiset.coe_count]
        exact List.count_pos_iff.mpr ha
      have h2 : Multiset.count a (toks : Multiset Token) ≤ Sb := by
        rw [Multiset.coe_count]
        exact hcnt a
      calc Multiset.count a (toks : Multiset Token) ≤ Sb := h2
        _ ≤ Sb * Multiset.count a (doc.tokens : Multiset Token) :=
            Nat.le_mul_of_pos_right _ (by omega)
    · have hz : Multiset.count a (toks : Multiset Token) = 0 := by
        rw [Multiset.coe_count]
        exact List.count_eq_zero_of_not_mem (fun hm => ha (hsub a hm))
      rw [hz]
      exact Nat.zero_le _
  have hcard := Multiset.card_le_card hms
  simpa [Multiset.card_nsmul, Multiset.coe_card] using hcard

/-- One step of the self-extending loop preserves the invariant. -/
theorem loopInv_step (doc : Doc) (seeds : List Token)
    (hdoc : (doc.tokens.map Token.i).Nodup)
    {toks : List Token} {i : Nat} (h : i < toks.length)
    (hinv : LoopInv doc seeds toks i) :
    LoopInv doc seeds (toks ++ get_conjuncts doc (toks.get ⟨i, h⟩)) (i + 1) := by
  obtain ⟨hcount, hsub, hreach, hpref⟩ := hinv
  have htake : (toks ++ get_conjuncts doc (toks.get ⟨i, h⟩)).take (i + 1)
      = toks.take i ++ [toks.get ⟨i, h⟩] := by
    rw [List.take_append_of_le_length (by omega), List.take_succ]
    have : toks[i]? = some (toks.get ⟨i, h⟩) := by
      rw [List.getElem?_eq_getElem h]
      rfl
    rw [this]
    rfl
  refine ⟨?_, ?_, ?_, ?_⟩
  · intro w
    rw [List.count_append, htake, List.countP_append, hcount w]
    have hxcnt : (get_conjuncts doc (toks.get ⟨i, h⟩)).count w
        = ([toks.get ⟨i, h⟩].countP fun v => decide (w ∈ get_conjuncts doc v)) := by
      simp only [List.countP_cons, List.countP_nil, decide_eq_true_eq, Nat.zero_add]
      by_cases hw : w ∈ get_conjuncts doc (toks.get ⟨i, h⟩)
      · rw [List.count_eq_one_of_mem (conjuncts_nodup hdoc _) hw, if_pos hw]
      · rw [List.count_eq_zero_of_not_mem hw, if_neg hw]
    omega
  · intro t ht
    rcases List.mem_append.mp ht with hin | hin
    · exact hsub t hin
    · exact (mem_conjuncts_elim hin).1
  · intro t ht
    rcases List.mem_append.mp ht with hin | hin
    · exact hreach t hin
    · obtain ⟨s, hs, hr⟩ := hreach _ (toks.get_mem i h)
      exact ⟨s, hs, ConjReach.step hr hin⟩
  · have hlen : seeds.length ≤ toks.length := by
      have := congrArg List.length hpref
      rw [List.length_take] at this
      omega
    rw [List.take_append_of_le_length hlen]
    exact hpref

/-- With ample fuel the loop result does not depend on the exact fuel
amount (tree-shaped parses). -/
theorem conjLoop_fuel_eq (doc : Doc) (verb : Token) (seeds : List Token) (Sb : Nat)
    (rank : Nat → Nat)
    (hdoc : (doc.tokens.map Token.i).Nodup)
    (hverb : verb ∈ doc.tokens)
    (hrank : ∀ u ∈ doc.tokens, ∀ v ∈ doc.tokens, u.head = v.i → u.i ≠ v.i → rank v.i < rank u.i)
    (hseedsub : ∀ s ∈ seeds, s ∈ doc.tokens)
    (hseedhead : ∀ s ∈ seeds, s.head = verb.i ∧ s.i ≠ verb.i)
    (hseedcnt : ∀ w, seeds.count w ≤ Sb) :
    ∀ f g toks i, LoopInv doc seeds toks i
      → Sb * doc.tokens.length - i < f → Sb * doc.tokens.length - i < g →
      conjLoop doc f toks i = conjLoop doc g toks i := by
  intro f
  induction f with
  | zero => intro g toks i _ hf _; exact absurd hf (by omega)
  | succ f ih =>
    intro g toks i hinv hf hg
    obtain ⟨g0, rfl⟩ : ∃ g0, g = g0 + 1 := ⟨g - 1, by omega⟩
    simp only [conjLoop]
    by_cases h : i < toks.length
    · rw [dif_pos h, dif_pos h]
      have hlen := inv_length_le doc verb seeds Sb rank hdoc hverb hrank hseedsub hseedhead
        hseedcnt hinv
      exact ih g0 _ _ (loopInv_step doc seeds hdoc h hinv) (by omega) (by omega)
    · rw [dif_neg h, dif_neg h]

/-- With ample fuel the loop ends in a state still satisfying the invariant,
with the cursor past the end of the list (a fixed point). -/
theorem conjLoop_final (doc : Doc) (verb : Token) (seeds : List Token) (Sb : Nat)
    (rank : Nat → Nat)
    (hdoc : (doc.tokens.map Token.i).Nodup)
    (hverb : verb ∈ doc.tokens)
    (hrank : ∀ u ∈ doc.tokens, ∀ v ∈ doc.tokens, u.head = v.i → u.i ≠ v.i → rank v.i < rank u.i)
    (hseedsub : ∀ s ∈ seeds, s ∈ doc.tokens)
    (hseedhead : ∀ s ∈ seeds, s.head = verb.i ∧ s.i ≠ verb.i)
    (hseedcnt : ∀ w, seeds.count w ≤ Sb) :
    ∀ f toks i, LoopInv doc seeds toks i → Sb * doc.tokens.length - i < f →
      LoopInv doc seeds (conjLoop doc f toks i) (conjLoop doc f toks i).length := by
  intro f
  induction f with
  | zero => intro toks i _ hf; exact absurd hf (by omega)
  | succ f ih =>
    intro toks i hinv hf
    simp only [conjLoop]
    by_cases h : i < toks.length
    · rw [dif_pos h]
      have hlen := inv_length_le doc verb seeds Sb rank hdoc hverb hrank hseedsub hseedhead
        hseedcnt hinv
      exact ih _ _ (loopInv_step doc seeds hdoc h hinv) (by omega)
    · rw [dif_neg h]
      obtain ⟨hcount, hsub, hreach, hpref⟩ := hinv
      refine ⟨?_, hsub, hreach, hpref⟩
      intro w
      have hw := hcount w
      rw [List.take_of_length_le (by omega : toks.length ≤ i)] at hw
      rw [List.take_length]
      exact hw

/-- Facts about the finished conjunct loop on a tree-shaped parse: the result
is exactly the conjunct closure of the seeds (with the seeds as its initial
segment), it is closed under `get_conjuncts`, and every token occurs at most
`Sb` times. -/
theorem conjLoop_run_facts (doc : Doc) (verb : Token) (seeds : List Token) (Sb : Nat)
    (rank : Nat → Nat)
    (hdoc : (doc.tokens.map Token.i).Nodup)
    (hverb : verb ∈ doc.tokens)
    (hrank : ∀ u ∈ doc.tokens, ∀ v ∈ doc.tokens, u.head = v.i → u.i ≠ v.i → rank v.i < rank u.i)
    (hseedsub : ∀ s ∈ seeds, s ∈ doc.tokens)
    (hseedhead : ∀ s ∈ seeds, s.head = verb.i ∧ s.i ≠ verb.i)
    (hseedcnt : ∀ w, seeds.count w ≤ Sb)
    (hSb : Sb ≤ 2) :
    (∀ t : Token, t ∈ conjLoop doc (conjFuel doc) seeds 0
      ↔ ∃ s ∈ seeds, ConjReach doc s t)
    ∧ (conjLoop doc (conjFuel doc) seeds 0).take seeds.length = seeds
    ∧ (∀ v ∈ conjLoop doc (conjFuel doc) seeds 0, ∀ cc ∈ get_conjuncts doc v,
        cc ∈ conjLoop doc (conjFuel doc) seeds 0)
    ∧ (∀ w, (conjLoop doc (conjFuel doc) seeds 0).count w ≤ Sb) := by
  have hinit : LoopInv doc seeds seeds 0 :=
    ⟨fun w => by simp, hseedsub, fun t ht => ⟨t, ht, ConjReach.refl t⟩, List.take_length seeds⟩
  have hfuel : Sb * doc.tokens.length - 0 < conjFuel doc := by
    have : Sb * doc.tokens.length ≤ 2 * doc.tokens.length :=
      Nat.mul_le_mul_right _ hSb
    simp only [conjFuel]
    omega
  have hfin := conjLoop_final doc verb seeds Sb rank hdoc hverb hrank hseedsub hseedhead
    hseedcnt (conjFuel doc) seeds 0 hinit hfuel
  obtain ⟨hcount, hsub, hreach, hpref⟩ := hfin
  have hcnt := inv_count_le doc verb seeds Sb rank hdoc hverb hrank hseedsub hseedhead
    hseedcnt ⟨hcount, hsub, hreach, hpref⟩
  have hseedsR : ∀ s ∈ seeds, s ∈ conjLoop doc (conjFuel doc) seeds 0 := by
    intro s hs
    have hw := hcount s
    have h1 : 1 ≤ seeds.count s := List.count_pos_iff.mpr hs
    exact List.count_pos_iff.mp (by omega)
  have hclosed : ∀ v ∈ conjLoop doc (conjFuel doc) seeds 0, ∀ cc ∈ get_conjuncts doc v,
      cc ∈ conjLoop doc (conjFuel doc) seeds 0 := by
    intro v hv cc hcc
    have hcp : 0 < ((conjLoop doc (conjFuel doc) seeds 0).take
        (conjLoop doc (conjFuel doc) seeds 0).length).countP
        (fun u => decide (cc ∈ get_conjuncts doc u)) := by
      rw [List.take_length]
      exact List.countP_pos_iff.mpr ⟨v, hv, by simp [hcc]⟩
    have hw := hcount cc
    exact List.count_pos_iff.mp (by omega)
  refine ⟨?_, hpref, hclosed, hcnt⟩
  intro t
  constructor
  · exact hreach t
  · rintro ⟨s, hs, hr⟩
    induction hr with
    | refl => exact hseedsR s hs
    | @step b c hab hcc ih => exact hclosed b ih c hcc

/-- Structural facts about the subject seed list. -/
theorem subjSeeds_facts (sd : List String) (doc : Doc) (verb : Token)
    (hdoc : (doc.tokens.map Token.i).Nodup) :
    (∀ s ∈ subjSeeds sd doc verb, s ∈ doc.tokens)
    ∧ (∀ s ∈ subjSeeds sd doc verb, s.head = verb.i ∧ s.i ≠ verb.i)
    ∧ (∀ w, (subjSeeds sd doc verb).count w ≤ 1) := by
  refine ⟨?_, ?_, ?_⟩
  · intro s hs
    exact (mem_lefts_elim (List.mem_filter.mp hs).1).1
  · intro s hs
    obtain ⟨-, hh, hlt⟩ := mem_lefts_elim (List.mem_filter.mp hs).1
    exact ⟨hh, by omega⟩
  · intro w
    have hnd : (subjSeeds sd doc verb).Nodup :=
      List.Nodup.filter _ (List.Nodup.filter _ (List.Nodup.filter _ (tokens_nodup hdoc)))
    exact List.nodup_iff_count_le_one.mp hnd w

/-- Structural facts about the object seed list. -/
theorem objSeeds_facts (od : List String) (doc : Doc) (verb : Token)
    (hdoc : (doc.tokens.map Token.i).Nodup) :
    (∀ s ∈ objSeeds od doc verb, s ∈ doc.tokens)
    ∧ (∀ s ∈ objSeeds od doc verb, s.head = verb.i ∧ s.i ≠ verb.i)
    ∧ (∀ w, (objSeeds od doc verb).count w ≤ 2) := by
  have hnd1 : ((rights doc verb).filter (fun t => od.contains t.dep)).Nodup :=
    List.Nodup.filter _ (List.Nodup.filter _ (List.Nodup.filter _ (tokens_nodup hdoc)))
  have hnd2 : ((rights doc verb).filter (fun t => t.dep == "xcomp")).Nodup :=
    List.Nodup.filter _ (List.Nodup.filter _ (List.Nodup.filter _ (tokens_nodup hdoc)))
  refine ⟨?_, ?_, ?_⟩
  · intro s hs
    rcases List.mem_append.mp hs with hin | hin
    · exact (mem_rights_elim (List.mem_filter.mp hin).1).1
    · exact (mem_rights_elim (List.mem_filter.mp hin).1).1
  · intro s hs
    have hfacts : s.head = verb.i ∧ verb.i < s.i := by
      rcases List.mem_append.mp hs with hin | hin
      · obtain ⟨-, hh, hlt⟩ := mem_rights_elim (List.mem_filter.mp hin).1
        exact ⟨hh, hlt⟩
      · obtain ⟨-, hh, hlt⟩ := mem_rights_elim (List.mem_filter.mp hin).1
        exact ⟨hh, hlt⟩
    exact ⟨hfacts.1, by omega⟩
  · intro w
    rw [objSeeds, List.count_append]
    have h1 := List.nodup_iff_count_le_one.mp hnd1 w
    have h2 := List.nodup_iff_count_le_one.mp hnd2 w
    omega

/-- When `xcomp` is not an object label, the two object seed passes are
disjoint and every token occurs at most once among the seeds. -/
theorem objSeeds_count_le_one (od : List String) (doc : Doc) (verb : Token)
    (hdoc : (doc.tokens.map Token.i).Nodup) (hx : "xcomp" ∉ od) :
    ∀ w, (objSeeds od doc verb).count w ≤ 1 := by
  have hnd1 : ((rights doc verb).filter (fun t => od.contains t.dep)).Nodup :=
    List.Nodup.filter _ (List.Nodup.filter _ (List.Nodup.filter _ (tokens_nodup hdoc)))
  have hnd2 : ((rights doc verb).filter (fun t => t.dep == "xcomp")).Nodup :=
    List.Nodup.filter _ (List.Nodup.filter _ (List.Nodup.filter _ (tokens_nodup hdoc)))
  intro w
  rw [objSeeds, List.count_append]
  have h1 := List.nodup_iff_count_le_one.mp hnd1 w
  have h2 := List.nodup_iff_count_le_one.mp hnd2 w
  by_cases hw1 : w ∈ (rights doc verb).filter (fun t => od.contains t.dep)
  · have hdep : w.dep ∈ od := by
      have := (List.mem_filter.mp hw1).2
      exact List.elem_iff.mp this
    have hw2 : w ∉ (rights doc verb).filter (fun t => t.dep == "xcomp") := by
      intro hmem
      have := (List.mem_filter.mp hmem).2
      rw [beq_iff_eq] at this
      rw [this] at hdep
      exact hx hdep
    rw [List.count_eq_zero_of_not_mem hw2]
    omega
  · rw [List.count_eq_zero_of_not_mem hw1]
    omega

/-- Claim C2: on a tree-shaped parse, `get_subjects_of_verb` returns exactly
the transitive conjunct closure of the seed subjects (left children labelled
in `SUBJ_DEPS`): a token is returned iff it is conjunct-reachable from a
seed, and the seeds form the initial segment of the result in their document
order; chained coordination is therefore followed through arbitrarily many
levels. -/
theorem c2_subjects_conjunct_closure (sd : List String) (doc : Doc) (verb : Token)
    (rank : Nat → Nat)
    (hdoc : (doc.tokens.map Token.i).Nodup)
    (hverb : verb ∈ doc.tokens)
    (hrank : ∀ u ∈ doc.tokens, ∀ v ∈ doc.tokens, u.head = v.i → u.i ≠ v.i → rank v.i < rank u.i) :
    (∀ t : Token, t ∈ get_subjects_of_verb sd doc verb
      ↔ ∃ s ∈ subjSeeds sd doc verb, ConjReach doc s t)
    ∧ (get_subjects_of_verb sd doc verb).take (subjSeeds sd doc verb).length
      = subjSeeds sd doc verb := by
  obtain ⟨hsub, hhead, hcnt1⟩ := subjSeeds_facts sd doc verb hdoc
  have hcnt : ∀ w, (subjSeeds sd doc verb).count w ≤ 2 := fun w => (hcnt1 w).trans (by omega)
  obtain ⟨hiff, hpref, -, -⟩ := conjLoop_run_facts doc verb (subjSeeds sd doc verb) 2 rank
    hdoc hverb hrank hsub hhead hcnt (by omega)
  exact ⟨hiff, hpref⟩

/-- Claim C2 (witness): on the chained coordination `Ann, Bob and Carl left`
all three tokens are returned, seeds first, and membership coincides with
conjunct reachability. -/
theorem c2_subjects_conjunct_closure_witness :
    get_subjects_of_verb ["nsubj"] docChain tokV = [tokA, tokB, tokC]
    ∧ (tokC ∈ get_subjects_of_verb ["nsubj"] docChain tokV
        ↔ ∃ s ∈ subjSeeds ["nsubj"] docChain tokV, ConjReach docChain s tokC) :=
  ⟨by decide,
    (c2_subjects_conjunct_closure ["nsubj"] docChain tokV rankChain
      (by decide) (by decide) (by decide)).1 tokC⟩

/-- Claim C4 (amended): provided `"xcomp"` is not itself a member of
`OBJ_DEPS` and the parse is tree-shaped, `get_objects_of_verb` returns each
token at most once. -/
theorem c4_objects_nodup_amended (od : List String) (doc : Doc) (verb : Token)
    (rank : Nat → Nat)
    (hdoc : (doc.tokens.map Token.i).Nodup)
    (hverb : verb ∈ doc.tokens)
    (hrank : ∀ u ∈ doc.tokens, ∀ v ∈ doc.tokens, u.head = v.i → u.i ≠ v.i → rank v.i < rank u.i)
    (hx : "xcomp" ∉ od) :
    (get_objects_of_verb od doc verb).Nodup := by
  obtain ⟨hsub, hhead, -⟩ := objSeeds_facts od doc verb hdoc
  have hcnt := objSeeds_count_le_one od doc verb hdoc hx
  obtain ⟨-, -, -, hble⟩ := conjLoop_run_facts doc verb (objSeeds od doc verb) 1 rank
    hdoc hverb hrank hsub hhead hcnt (by omega)
  rw [List.nodup_iff_count_le_one]
  exact hble

/-- Claim C4 (witness for the amended theorem): a direct object with one
conjunct yields a duplicate-free result. -/
theorem c4_objects_nodup_amended_witness :
    (get_objects_of_verb ["dobj"] docObjs vObj).Nodup :=
  c4_objects_nodup_amended ["dobj"] docObjs vObj rankId
    (by decide) (by decide) (by decide) (by decide)

/-- Claim C9: on any finite document whose dependency structure is a tree
(distinct token indices and a rank function decreasing towards heads), the
self-extending conjunct loops of `get_subjects_of_verb` and
`get_objects_of_verb` reach a fixed point: granting the loop any amount of
fuel beyond `conjFuel` returns the very same list, and the returned lists
are closed under `get_conjuncts` (no further additions are possible). -/
theorem c9_conjunct_loops_terminate (sd od : List String) (doc : Doc) (verb : Token)
    (rank : Nat → Nat)
    (hdoc : (doc.tokens.map Token.i).Nodup)
    (hverb : verb ∈ doc.tokens)
    (hrank : ∀ u ∈ doc.tokens, ∀ v ∈ doc.tokens, u.head = v.i → u.i ≠ v.i → rank v.i < rank u.i) :
    (∀ g, conjFuel doc ≤ g →
      conjLoop doc g (subjSeeds sd doc verb) 0 = get_subjects_of_verb sd doc verb
      ∧ conjLoop doc g (objSeeds od doc verb) 0 = get_objects_of_verb od doc verb)
    ∧ (∀ v ∈ get_subjects_of_verb sd doc verb, ∀ c ∈ get_conjuncts doc v,
        c ∈ get_subjects_of_verb sd doc verb)
    ∧ (∀ v ∈ get_objects_of_verb od doc verb, ∀ c ∈ get_conjuncts doc v,
        c ∈ get_objects_of_verb od doc verb) := by
  obtain ⟨hssub, hshead, hscnt1⟩ := subjSeeds_facts sd doc verb hdoc
  have hscnt : ∀ w, (subjSeeds sd doc verb).count w ≤ 2 := fun w => (hscnt1 w).trans (by omega)
  obtain ⟨hosub, hohead, hocnt⟩ := objSeeds_facts od doc verb hdoc
  have hfuel : 2 * doc.tokens.length - 0 < conjFuel doc := by
    simp only [conjFuel]
    omega
  have hsinit : LoopInv doc (subjSeeds sd doc verb) (subjSeeds sd doc verb) 0 :=
    ⟨fun w => by simp, hssub, fun t ht => ⟨t, ht, ConjReach.refl t⟩, List.take_length _⟩
  have hoinit : LoopInv doc (objSeeds od doc verb) (objSeeds od doc verb) 0 :=
    ⟨fun w => by simp, hosub, fun t ht => ⟨t, ht, ConjReach.refl t⟩, List.take_length _⟩
  refine ⟨?_, ?_, ?_⟩
  · intro g hg
    constructor
    · exact conjLoop_fuel_eq doc verb (subjSeeds sd doc verb) 2 rank hdoc hverb hrank
        hssub hshead hscnt g (conjFuel doc) _ 0 hsinit (by omega) hfuel
    · exact conjLoop_fuel_eq doc verb (objSeeds od doc verb) 2 rank hdoc hverb hrank
        hosub hohead hocnt g (conjFuel doc) _ 0 hoinit (by omega) hfuel
  · exact (conjLoop_run_facts doc verb (subjSeeds sd doc verb) 2 rank hdoc hverb hrank
      hssub hshead hscnt (by omega)).2.2.1
  · exact (conjLoop_run_facts doc verb (objSeeds od doc verb) 2 rank hdoc hverb hrank
      hosub hohead hocnt (by omega)).2.2.1

/-- Claim C9 (witness): on the chained-coordination document, extra fuel
does not change the subject list. -/
theorem c9_conjunct_loops_terminate_witness :
    conjLoop docChain (conjFuel docChain + 7) (subjSeeds ["nsubj"] docChain tokV) 0
      = get_subjects_of_verb ["nsubj"] docChain tokV :=
  ((c9_conjunct_loops_terminate ["nsubj"] ["dobj"] docChain tokV rankChain
      (by decide) (by decide) (by decide)).1
    (conjFuel docChain + 7) (Nat.le_add_right _ _)).1

end SpacyUtils
